import Mathlib

/-
  Verification development for the js-db-anonymizer repository.

  The repository bundles two generations of each service (an older and a newer
  `AnonymizationService` / `Dumper`); both are modelled below where the claims
  cite both.  JavaScript strings are modelled as `List Char`; the streaming
  chunk transforms of `Dumper.preprocessDump` / `Dumper.transformDumpFile`
  are modelled per chunk (the code applies `String.replace`-style global
  regex replacement to each chunk's text).
-/

namespace JsDbAnon

/-- Global, left-to-right, non-overlapping replacement of the pattern `p` by
`r`, the semantics of JavaScript `String.prototype.replace` with a `/g` literal
pattern, written with explicit fuel so that it is structurally recursive.
Fuel `s.length` is always sufficient: every step consumes at least one
character. -/
def replaceAllFuel (p r : List Char) : Nat → List Char → List Char
  | 0, s => s
  | _ + 1, [] => []
  | fuel + 1, c :: s =>
    if p ≠ [] ∧ p.isPrefixOf (c :: s) then
      r ++ replaceAllFuel p r fuel (s.drop (p.length - 1))
    else
      c :: replaceAllFuel p r fuel s

/-- `s.replace(/p/g, r)` for a literal pattern `p`. -/
def replaceAll (p r s : List Char) : List Char :=
  replaceAllFuel p r s.length s

/-- `s.includes(p)`: `p` occurs as a contiguous substring of `s`. -/
def hasSubstr (p : List Char) : List Char → Bool
  | [] => p.isEmpty
  | c :: s => p.isPrefixOf (c :: s) || hasSubstr p s

/-! ### The concrete rewrite rules of `Dumper.preprocessDump` / `transformDumpFile`

The regex literals of the source are modelled as literal character sequences
(the single unescaped `.` of `pg_catalog.set_config` is taken to match the
literal dot that the surrounding text fixes).  String literals below avoid
the single-quote character; it is spliced in as `sqChar`. -/

/-- A single-quote character. -/
def sqChar : Char := '\''

/-- Pattern of the first rewrite rule: `SET transaction_timeout = 0;`. -/
def ttPat : List Char := "SET transaction_timeout = 0;".data

/-- Replacement of the first rewrite rule, the same line commented out. -/
def ttRepl : List Char := ['-', '-', ' '] ++ ttPat

/-- Pattern of the search_path rewrite rule:
`SELECT pg_catalog.set_config(<q>search_path<q>, <q><q>, false);`. -/
def spPat : List Char :=
  "SELECT pg_catalog.set_config(".data ++ [sqChar] ++ "search_path".data ++
    [sqChar] ++ ", ".data ++ [sqChar, sqChar] ++ ", false);".data

/-- Replacement of the search_path rewrite rule, with `public` between the
inner quotes. -/
def spRepl : List Char :=
  "SELECT pg_catalog.set_config(".data ++ [sqChar] ++ "search_path".data ++
    [sqChar] ++ ", ".data ++ [sqChar] ++ "public".data ++ [sqChar] ++
    ", false);".data

/-- Pattern of the quote-escaping rule of `Dumper.transformDumpFile`. -/
def quotePat : List Char := [sqChar]

/-- Replacement of the quote-escaping rule: a doubled quote. -/
def quoteRepl : List Char := [sqChar, sqChar]

/-- One chunk of the `Transform` inside the static
`Dumper.preprocessDump` (part_004): the two settings-rewrite rules, applied in
source order. -/
def transformChunkP4 (s : List Char) : List Char :=
  replaceAll spPat spRepl (replaceAll ttPat ttRepl s)

/-- One chunk of the `Transform` inside `Dumper.transformDumpFile`
(part_003): the two settings-rewrite rules followed by quote escaping. -/
def transformChunkP3 (s : List Char) : List Char :=
  replaceAll quotePat quoteRepl (transformChunkP4 s)

/-! ### Dumper.validateDump (part_003 and part_004)

The dump file is read line by line (`readline`); a line is a `List Char`.
Both generations run the same scanning loop with the same early break; they
differ only in how the final `isValid` field is computed. -/

/-- The accumulating validation record of `Dumper.validateDump`. -/
structure DumpScanState where
  hasTableDefinitions : Bool
  hasData : Bool
  pgVersion : Option Nat
  isValid : Bool
deriving DecidableEq

/-- Pattern of the `line.includes` check for table definitions. -/
def createTablePat : List Char := "CREATE TABLE".data

/-- Pattern of the `line.includes` check for data rows. -/
def insertIntoPat : List Char := "INSERT INTO".data

/-- Pattern of the `line.includes` check for the version comment (no
trailing space, as in the source). -/
def versionMarker : List Char := ['-', '-'] ++ " Dumped from database version".data

/-- The version regex additionally requires a space and at least one digit. -/
def versionMarkerSp : List Char := versionMarker ++ [' ']

/-- `parseInt` on a run of decimal digits. -/
def digitsToNat (ds : List Char) : Nat :=
  ds.foldl (fun n c => n * 10 + (c.toNat - 48)) 0

/-- First match of the version regex (marker, a space, then one or more
digits) in a line: the first position where the marker, a space and at least
one digit occur; the captured group is the maximal digit run. -/
def findVersionNum : List Char → Option Nat
  | [] => none
  | c :: rest =>
    if versionMarkerSp.isPrefixOf (c :: rest) then
      let ds := ((c :: rest).drop versionMarkerSp.length).takeWhile Char.isDigit
      if ds.isEmpty then findVersionNum rest else some (digitsToNat ds)
    else findVersionNum rest

/-- JavaScript truthiness of the `pgVersion` field (`!!validation.pgVersion`
and the loop's break test): `null` and `0` are falsy. -/
def truthyVersion : Option Nat → Bool
  | none => false
  | some v => v != 0

/-- Processing of a single line of the dump inside the `for await` loop:
the three `includes`/`match` checks, in source order. -/
def scanLineStep (st : DumpScanState) (line : List Char) : DumpScanState :=
  let st1 := if hasSubstr createTablePat line then
    { st with hasTableDefinitions := true } else st
  let st2 := if hasSubstr insertIntoPat line then
    { st1 with hasData := true } else st1
  if hasSubstr versionMarker line then
    match findVersionNum line with
    | some v => { st2 with pgVersion := some v }
    | none => st2
  else st2

/-- The early-exit test of the scanning loop (JavaScript truthiness of the
conjunction of the three accumulated signals). -/
def scanDone (st : DumpScanState) : Bool :=
  st.hasTableDefinitions && st.hasData && truthyVersion st.pgVersion

/-- The scanning loop with its `break` once all three signals are found. -/
def scanLinesAux (st : DumpScanState) : List (List Char) → DumpScanState
  | [] => st
  | l :: ls =>
    let st1 := scanLineStep st l
    if scanDone st1 then st1 else scanLinesAux st1 ls

/-- The `validation` record before the loop runs. -/
def initScanState : DumpScanState :=
  { hasTableDefinitions := false, hasData := false, pgVersion := none,
    isValid := false }

/-- `Dumper.validateDump` of part_003: after the scan,
`isValid = hasTableDefinitions && hasData && !!pgVersion`. -/
def validateDumpP3 (lines : List (List Char)) : DumpScanState :=
  let st := scanLinesAux initScanState lines
  { st with isValid :=
      st.hasTableDefinitions && st.hasData && truthyVersion st.pgVersion }

/-- `Dumper.validateDump` of part_004: after the scan, the source sets
`validation.isValid = true` unconditionally. -/
def validateDumpP4 (lines : List (List Char)) : DumpScanState :=
  let st := scanLinesAux initScanState lines
  { st with isValid := true }

/-- Specification-side scan of a prefix without the early break, used to
characterize the early-exit scan. -/
def scanFoldSpec (st : DumpScanState) : List (List Char) → DumpScanState
  | [] => st
  | l :: ls => scanFoldSpec (scanLineStep st l) ls

/-- Specification-side version accumulation: the last parsable version line
of the prefix wins, `none` if there is none. -/
def versionUpd (acc : Option Nat) (l : List Char) : Option Nat :=
  match findVersionNum l with
  | some v => some v
  | none => acc

/-! ### AnonymizationService.processRules and the masking loop

Both generations (src/services/anonymization.js lines 356–388 / 762–794) run
the same loop: BEGIN; per table `validateTable` (skip when absent),
`processRule`/`applyMaskingRules`, `verifyMasking`; COMMIT; with ROLLBACK and
rethrow on any error.  The database visible to the pooled connection is
modelled by `DB`; mask-binding statements can be made to fail via the
`labelFails` fault injection (the realistic failure mode: the engine rejects
a `SECURITY LABEL` statement). -/

/-- ASCII lowercasing of an identifier character, modelling SQL `lower()`. -/
def lowerChar (c : Char) : Char :=
  if 'A' ≤ c ∧ c ≤ 'Z' then Char.ofNat (c.toNat + 32) else c

/-- `lower()` of an identifier. -/
def lowerName (s : String) : String := String.mk (s.data.map lowerChar)

/-- The rule object for one table: an optional map from column name to mask
expression (a missing `masks` member makes the code skip the table). -/
structure TableRule where
  masks : Option (List (String × String))
deriving DecidableEq

/-- A RuleSet: the JavaScript object `{ tableName: { masks: ... } }` as its
ordered key/value list (`Object.keys` order). -/
abbrev RuleSet := List (String × TableRule)

/-- The database state visible to the connection: the public tables with
their exact stored names, the security labels bound so far
(table, column, mask expression) and the per-table row counts. -/
structure DB where
  tables : List String
  labels : List (String × String × String)
  rowcounts : List (String × Nat)
deriving DecidableEq

/-- The SQL statements issued by `processRules`, recorded as a trace. -/
inductive Query where
  | beginTxn : Query
  | commitTxn : Query
  | rollbackTxn : Query
  | lookupTable : String → Query
  | secLabel : String → String → String → Query
  | countRows : String → Query
deriving DecidableEq

/-- The service's connection-local state during one `processRules` call: the
uncommitted working database and the `this.exactTableName` instance field. -/
structure Session where
  work : DB
  exactTableName : Option String
deriving DecidableEq

/-- Result of a database-state-changing step. -/
structure MaskResult where
  db : DB
  trace : List Query
  ok : Bool
deriving DecidableEq

/-- Result of an iteration / of the loop / of `processRules`. -/
structure StepResult where
  sess : Session
  trace : List Query
  ok : Bool
deriving DecidableEq

/-- Result of the whole `processRules` call: the committed database, the
trace, and whether the call returned normally. -/
structure ProcResult where
  committed : DB
  trace : List Query
  ok : Bool
deriving DecidableEq

/-- `validateTable`'s information_schema query: the first public table whose
`lower(table_name)` equals the lowered input. -/
def validateTableQuery (tables : List String) (name : String) : Option String :=
  tables.find? (fun t => lowerName t == lowerName name)

/-- `SELECT COUNT(*) FROM "t"`: errors (`none`) when the table does not
exist, otherwise the table's row count. -/
def countQuery (db : DB) (t : String) : Option Nat :=
  if db.tables.contains t then
    some (((db.rowcounts.find? (fun e => e.1 == t)).map Prod.snd).getD 0)
  else none

/-- `AnonymizationService.verifyMasking`: counts the rows of the stored
`this.exactTableName`; the `tableName` parameter is used only for logging.  An
unset instance field interpolates as the literal string `undefined` in the
SQL text. -/
def verifyMasking (sess : Session) (tableName : String) : Option Nat :=
  countQuery sess.work (sess.exactTableName.getD "undefined")

/-- The mask-binding loop of `processRule` / `applyMaskingRules`: one
`SECURITY LABEL` statement per column, in source order; the first failing
statement aborts the iteration. -/
def applyMasks (labelFails : String → String → String → Bool) (exact : String) :
    List (String × String) → DB → MaskResult
  | [], db => ⟨db, [], true⟩
  | (col, fn) :: rest, db =>
    if labelFails exact col fn then ⟨db, [Query.secLabel exact col fn], false⟩
    else
      let r := applyMasks labelFails exact rest
        { db with labels := db.labels ++ [(exact, col, fn)] }
      ⟨r.db, Query.secLabel exact col fn :: r.trace, r.ok⟩

/-- `AnonymizationService.processRule` (first generation; the second
generation's `applyMaskingRules` receives `rules[tableName]` directly and is
otherwise identical): looks up the table's rule object and binds each mask to
the stored exact table name. -/
def processRule (labelFails : String → String → String → Bool) (rules : RuleSet)
    (tableName : String) (sess : Session) : StepResult :=
  match (rules.find? (fun e => e.1 == tableName)).map Prod.snd with
  | none => ⟨sess, [], true⟩
  | some tr =>
    match tr.masks with
    | none => ⟨sess, [], true⟩
    | some masks =>
      let exact := sess.exactTableName.getD "undefined"
      let r := applyMasks labelFails exact masks sess.work
      ⟨{ sess with work := r.db }, r.trace, r.ok⟩

/-- One iteration of the `processRules` table loop: `validateTable` (which
stores the exact name in the instance field), skip when the table is absent,
otherwise `processRule` followed by `verifyMasking`. -/
def runIteration (labelFails : String → String → String → Bool) (rules : RuleSet)
    (tableName : String) (sess : Session) : StepResult :=
  match validateTableQuery sess.work.tables tableName with
  | none => ⟨sess, [Query.lookupTable tableName], true⟩
  | some exact =>
    let sess1 : Session := { sess with exactTableName := some exact }
    let r1 := processRule labelFails rules tableName sess1
    if r1.ok then
      let counted := r1.sess.exactTableName.getD "undefined"
      match verifyMasking r1.sess tableName with
      | some _ =>
        ⟨r1.sess, Query.lookupTable tableName ::
          (r1.trace ++ [Query.countRows counted]), true⟩
      | none =>
        ⟨r1.sess, Query.lookupTable tableName ::
          (r1.trace ++ [Query.countRows counted]), false⟩
    else ⟨r1.sess, Query.lookupTable tableName :: r1.trace, false⟩

/-- The `for (const tableName of Object.keys(rules))` loop. -/
def processLoop (labelFails : String → String → String → Bool) (rules : RuleSet) :
    List (String × TableRule) → Session → StepResult
  | [], sess => ⟨sess, [], true⟩
  | (n, _) :: rest, sess =>
    let r := runIteration labelFails rules n sess
    if r.ok then
      let r2 := processLoop labelFails rules rest r.sess
      ⟨r2.sess, r.trace ++ r2.trace, r2.ok⟩
    else ⟨r.sess, r.trace, false⟩

/-- `AnonymizationService.processRules` (both generations): throws without
touching the database when the rule set is empty; otherwise `BEGIN`, the
table loop, `COMMIT`; on any failure `ROLLBACK` (discarding the working
state) and rethrow. -/
def processRules (labelFails : String → String → String → Bool) (db : DB)
    (rules : RuleSet) : ProcResult :=
  if rules.isEmpty then ⟨db, [], false⟩
  else
    let sess0 : Session := { work := db, exactTableName := none }
    let r := processLoop labelFails rules rules sess0
    if r.ok then ⟨r.sess.work, Query.beginTxn :: (r.trace ++ [Query.commitTxn]), true⟩
    else ⟨db, Query.beginTxn :: (r.trace ++ [Query.rollbackTxn]), false⟩

/-- Transaction-control statements. -/
def txnFree (q : Query) : Bool :=
  match q with
  | Query.beginTxn => false
  | Query.commitTxn => false
  | Query.rollbackTxn => false
  | _ => true

/-! ### Readiness waiting: waitForPostgres and waitForContainerHealth -/

/-- Result of a bounded wait: whether it returned normally, how many probe
attempts it made, and how many fixed-interval sleeps it performed (each sleep
is one `retryInterval`). -/
structure WaitCount where
  ok : Bool
  probes : Nat
  sleeps : Nat
deriving DecidableEq

/-- `AnonymizationService.waitForPostgres` (both generations): attempts
`1..maxRetries`; each attempt opens a client and issues `SELECT 1`
(abstracted as the probe `connectOk`); on success it returns, on failure it
rethrows when `attempt === maxRetries` and otherwise sleeps one
`retryInterval` and retries.  `rem` counts the loop iterations left; a
JavaScript `for` loop that runs out of iterations returns normally. -/
def wfpAux (connectOk : Nat → Bool) (maxRetries : Nat) : Nat → Nat → WaitCount
  | _, 0 => ⟨true, 0, 0⟩
  | attempt, rem + 1 =>
    if connectOk attempt then ⟨true, 1, 0⟩
    else if attempt == maxRetries then ⟨false, 1, 0⟩
    else
      let r := wfpAux connectOk maxRetries (attempt + 1) rem
      ⟨r.ok, r.probes + 1, r.sleeps + 1⟩

/-- The wait as called: attempts start at 1. -/
def waitForPostgres (connectOk : Nat → Bool) (maxRetries : Nat) : WaitCount :=
  wfpAux connectOk maxRetries 1 maxRetries

/-- First-generation `waitForContainerHealth` (anonymization.js lines
217–233): up to 30 polls of `State.Health?.Status`; return on the first
`healthy` observation, otherwise sleep one interval and retry; throw after
the loop. -/
def wchG1Aux (statusOf : Nat → Option String) : Nat → Nat → WaitCount
  | _, 0 => ⟨false, 0, 0⟩
  | i, rem + 1 =>
    if statusOf i == some "healthy" then ⟨true, 1, 0⟩
    else
      let r := wchG1Aux statusOf (i + 1) rem
      ⟨r.ok, r.probes + 1, r.sleeps + 1⟩

def waitForContainerHealthG1 (statusOf : Nat → Option String) : WaitCount :=
  wchG1Aux statusOf 0 30

/-! ### part_005 waitForContainerHealth (exit-code handling) -/

/-- Observed container state at one `container.inspect()` poll. -/
structure CState where
  running : Bool
  health : Option String
  exitCode : Nat
deriving DecidableEq

/-- The success test of the part_005 health wait:
`state.Running && (!state.Health || state.Health.Status === "healthy")`. -/
def healthyObs (st : CState) : Bool :=
  st.running && (st.health.isNone || st.health == some "healthy")

/-- Outcome of the part_005 health wait, with the number of probes made:
returned healthy, threw the container-exited error, or threw the
max-retries timeout error. -/
inductive HealthOutcome where
  | ok : Nat → HealthOutcome
  | exited : Nat → Nat → HealthOutcome
  | timeout : Nat → HealthOutcome
deriving DecidableEq

/-- Count one more probe before an outcome. -/
def addProbe : HealthOutcome → HealthOutcome
  | HealthOutcome.ok p => HealthOutcome.ok (p + 1)
  | HealthOutcome.exited c p => HealthOutcome.exited c (p + 1)
  | HealthOutcome.timeout p => HealthOutcome.timeout (p + 1)

/-- part_005 `waitForContainerHealth` (lines 262–289): up to 30 polls.  The
loop returns on the first healthy / running-without-healthcheck observation.
An observed non-zero exit code raises an error inside the `try`; the `catch`
logs it and rethrows only when `i === maxRetries - 1`, so everywhere else the
loop simply continues (skipping the sleep).  After the loop a timeout error
is thrown. -/
def wch5Aux (inspect : Nat → CState) (maxRetries : Nat) : Nat → Nat → HealthOutcome
  | _, 0 => HealthOutcome.timeout 0
  | i, rem + 1 =>
    if healthyObs (inspect i) then HealthOutcome.ok 1
    else if (inspect i).exitCode != 0 then
      if i == maxRetries - 1 then HealthOutcome.exited (inspect i).exitCode 1
      else addProbe (wch5Aux inspect maxRetries (i + 1) rem)
    else addProbe (wch5Aux inspect maxRetries (i + 1) rem)

def waitForContainerHealthP5 (inspect : Nat → CState) : HealthOutcome :=
  wch5Aux inspect 30 0 30

/-! ### AnonymizationService.cleanup -/

/-- Fault injection for teardown: whether `pool.end()`, `container.stop()`
and `container.remove()` reject, and whether the docker errors carry
statusCode 404 ("no such container", as after a previous teardown). -/
structure CleanupFaults where
  poolEndFails : Bool
  stopFails : Bool
  stopIs404 : Bool
  removeFails : Bool
  removeIs404 : Bool
deriving DecidableEq

/-- The resources a service instance references: whether `this.pool` /
`this.container` are set, and the live state behind them. -/
structure SvcState where
  hasPool : Bool
  poolOpen : Bool
  hasContainer : Bool
  containerRunning : Bool
  containerExists : Bool
deriving DecidableEq

/-- `DockerManager.ensureCleanContainer`: stop, then remove; a rejection
whose statusCode is 404 is treated as success (nothing to clean), any other
rejection is rethrown to the caller.  Stopping a nonexistent container
rejects with 404.  Returns the new state and the error propagated to the
caller. -/
def ensureCleanContainer (st : SvcState) (faults : CleanupFaults) :
    SvcState × Option String :=
  if st.containerExists then
    if faults.stopFails then
      (st, if faults.stopIs404 then none else some "stop failed")
    else
      let st1 := { st with containerRunning := false }
      if faults.removeFails then
        (st1, if faults.removeIs404 then none else some "remove failed")
      else ({ st1 with containerExists := false }, none)
  else (st, none)

/-- First-generation `AnonymizationService.cleanup` (lines 484–505): the pool
closure and the container stop/remove each sit in their own try/catch whose
catch only logs; a stop failure skips the remove; the method never
rethrows. -/
def cleanupG1 (st : SvcState) (faults : CleanupFaults) : SvcState × Option String :=
  let st1 :=
    if st.hasPool then
      if faults.poolEndFails then st else { st with poolOpen := false }
    else st
  let st2 :=
    if st1.hasContainer then
      if st1.containerExists then
        if faults.stopFails then st1
        else
          let stStopped := { st1 with containerRunning := false }
          if faults.removeFails then stStopped
          else { stStopped with containerExists := false }
      else st1
    else st1
  (st2, none)

/-- Second-generation `cleanup` (lines 847–860): pool closure and
`ensureCleanContainer` inside a single try/catch whose catch only logs; a
pool-closure failure skips the container step; an error rethrown by
`ensureCleanContainer` is caught and logged. -/
def cleanupG2 (st : SvcState) (faults : CleanupFaults) : SvcState × Option String :=
  if st.hasPool then
    if faults.poolEndFails then (st, none)
    else
      let r := ensureCleanContainer { st with poolOpen := false } faults
      (r.1, none)
  else
    let r := ensureCleanContainer st faults
    (r.1, none)

/-! ### The preprocessed dump copy: creation, use, deletion -/

/-- A filesystem: an association of paths to file contents. -/
abbrev FS := List (String × List Char)

def fsRead (fs : FS) (p : String) : Option (List Char) :=
  (fs.find? (fun e => e.1 == p)).map Prod.snd

def fsWrite (fs : FS) (p : String) (c : List Char) : FS :=
  (p, c) :: fs.filter (fun e => e.1 != p)

def fsUnlink (fs : FS) (p : String) : FS :=
  fs.filter (fun e => e.1 != p)

/-- part_004 static `Dumper.preprocessDump`: streams the dump through the
settings-rewrite transform into the new file `dumpPath + ".processed"`;
fails when the input cannot be read. -/
def preprocessDumpP4 (fs : FS) (dumpPath : String) : Option (FS × String) :=
  match fsRead fs dumpPath with
  | none => none
  | some content =>
    some (fsWrite fs (dumpPath ++ ".processed") (transformChunkP4 content),
      dumpPath ++ ".processed")

/-- part_003 instance `Dumper.preprocessDump` / `transformDumpFile`: as
above but with the additional quote-escaping step. -/
def preprocessDumpP3 (fs : FS) (dumpPath : String) : Option (FS × String) :=
  match fsRead fs dumpPath with
  | none => none
  | some content =>
    some (fsWrite fs (dumpPath ++ ".processed") (transformChunkP3 content),
      dumpPath ++ ".processed")

/-- Fault injection for the two shell commands of the part_004 import. -/
structure ImportFaults where
  schemaCmdFails : Bool
  importCmdFails : Bool
deriving DecidableEq

/-- part_004 static `Dumper.importDump`: preprocess, `CREATE SCHEMA`, then
the psql import; its finally block unlinks the preprocessed copy whenever one was
created, on the success and on the failure path alike.  Returns the final
filesystem and whether the import succeeded. -/
def importDumpP4 (fs : FS) (dumpPath : String) (faults : ImportFaults) :
    FS × Bool :=
  match preprocessDumpP4 fs dumpPath with
  | none => (fs, false)
  | some (fs1, pp) =>
    if faults.schemaCmdFails then (fsUnlink fs1 pp, false)
    else if faults.importCmdFails then (fsUnlink fs1 pp, false)
    else (fsUnlink fs1 pp, true)

/-- Second-generation `AnonymizationService.importOriginalDump` (lines
726–747): preprocesses through the instance Dumper (part_003) and imports
via part_003 `Dumper.importDump`, which runs psql in the container and never
deletes the preprocessed copy. -/
def importOriginalDumpG2 (fs : FS) (dumpPath : String) (faults : ImportFaults) :
    FS × Bool :=
  match preprocessDumpP3 fs dumpPath with
  | none => (fs, false)
  | some (fs1, _pp) =>
    if faults.importCmdFails then (fs1, false) else (fs1, true)

theorem isPrefixOf_length_le :
    ∀ (a b : List Char), a.isPrefixOf b = true → a.length ≤ b.length
  | [], _, _ => Nat.zero_le _
  | _ :: _, [], h => by simp at h
  | a :: as, b :: bs, h => by
    rw [List.isPrefixOf_cons₂] at h
    rw [Bool.and_eq_true] at h
    exact Nat.succ_le_succ (isPrefixOf_length_le as bs h.2)

theorem isPrefixOf_nil (a : List Char) (h : a.isPrefixOf [] = true) : a = [] := by
  cases a with
  | nil => rfl
  | cons x xs => simp at h

theorem isPrefixOf_append_left :
    ∀ (a b c : List Char), a.isPrefixOf (b ++ c) = true → a.length ≤ b.length →
      a.isPrefixOf b = true
  | [], _, _, _, _ => by simp
  | x :: as, [], c, _, hle => by simp at hle
  | x :: as, y :: bs, c, h, hle => by
    rw [List.cons_append, List.isPrefixOf_cons₂, Bool.and_eq_true] at h
    rw [List.isPrefixOf_cons₂, Bool.and_eq_true]
    exact ⟨h.1, isPrefixOf_append_left as bs c h.2 (Nat.le_of_succ_le_succ hle)⟩

theorem isPrefixOf_append_swap :
    ∀ (b a c : List Char), a.isPrefixOf (b ++ c) = true → b.length ≤ a.length →
      b.isPrefixOf a = true
  | [], _, _, _, _ => by simp
  | x :: bs, [], c, _, hle => by simp at hle
  | x :: bs, y :: as, c, h, hle => by
    rw [List.cons_append, List.isPrefixOf_cons₂, Bool.and_eq_true] at h
    rw [List.isPrefixOf_cons₂, Bool.and_eq_true]
    refine ⟨?_, isPrefixOf_append_swap bs as c h.2 (Nat.le_of_succ_le_succ hle)⟩
    have hxy := h.1
    rw [beq_iff_eq] at hxy ⊢
    exact hxy.symm

theorem hasSubstr_of_isPrefixOf (p s : List Char) (hp : p ≠ [])
    (h : p.isPrefixOf s = true) : hasSubstr p s = true := by
  cases s with
  | nil => exact absurd (isPrefixOf_nil p h) hp
  | cons c t => simp [hasSubstr, h]

theorem hasSubstr_cons_false (p : List Char) (c : Char) (t : List Char)
    (h : hasSubstr p (c :: t) = false) :
    p.isPrefixOf (c :: t) = false ∧ hasSubstr p t = false := by
  simpa [hasSubstr] using h

/-- If the pattern does not occur in `s`, replacement leaves `s` unchanged. -/
theorem replaceAllFuel_of_not_hasSubstr (p r : List Char) :
    ∀ fuel s, hasSubstr p s = false → replaceAllFuel p r fuel s = s := by
  intro fuel
  induction fuel with
  | zero => intro s _; rfl
  | succ n ih =>
    intro s hs
    cases s with
    | nil => rfl
    | cons c t =>
      have h := hasSubstr_cons_false p c t hs
      rw [replaceAllFuel, if_neg (by simp [h.1])]
      rw [ih t h.2]

/-- Prefixes of the output of `replaceAllFuel` that are tails `p.drop k` of the
pattern must already be prefixes of the input: the replacement text cannot
manufacture them, given that no nonzero tail of `p` is a prefix of `r`, `p`
does not occur in `r`, and `r` is at least as long as `p`. -/
theorem replaceAllFuel_drop_isPrefixOf (p r : List Char)
    (hlen : p.length ≤ r.length)
    (hrfree : hasSubstr p r = false)
    (hps : ∀ k, k < p.length → 0 < k → (p.drop k).isPrefixOf r = false) :
    ∀ fuel s k, k < p.length →
      (p.drop k).isPrefixOf (replaceAllFuel p r fuel s) = true →
      (p.drop k).isPrefixOf s = true := by
  intro fuel
  induction fuel with
  | zero => intro s k _ h; exact h
  | succ n ih =>
    intro s k hk h
    cases s with
    | nil =>
      exact h
    | cons c t =>
      by_cases hcond : p ≠ [] ∧ p.isPrefixOf (c :: t)
      · rw [replaceAllFuel, if_pos hcond] at h
        have hdp : (p.drop k).length ≤ r.length := by
          rw [List.length_drop]
          omega
        have hpr : (p.drop k).isPrefixOf r = true :=
          isPrefixOf_append_left _ _ _ h hdp
        rcases Nat.eq_zero_or_pos k with hk0 | hkpos
        · subst hk0
          rw [List.drop_zero] at hpr
          have := hasSubstr_of_isPrefixOf p r hcond.1 hpr
          rw [this] at hrfree
          exact absurd hrfree (by simp)
        · have := hps k hk hkpos
          rw [hpr] at this
          exact absurd this (by simp)
      · rw [replaceAllFuel, if_neg hcond] at h
        have hdropk : p.drop k = p[k] :: p.drop (k + 1) :=
          List.drop_eq_getElem_cons hk
        rw [hdropk] at h ⊢
        rw [List.isPrefixOf_cons₂, Bool.and_eq_true] at h ⊢
        refine ⟨h.1, ?_⟩
        rcases Nat.lt_or_ge (k + 1) p.length with hk1 | hk1
        · exact ih t (k + 1) hk1 h.2
        · have hnil : p.drop (k + 1) = [] := List.drop_eq_nil_of_le hk1
          rw [hnil]
          simp

/-- `p` cannot occur in `w ++ X` when it occurs neither in `w` nor in `X` and
no nonempty suffix of `w` is a prefix of `p`. -/
theorem hasSubstr_append_false (p : List Char) (_hp : p ≠ []) :
    ∀ (w : List Char), hasSubstr p w = false →
      (∀ j, j < w.length → (w.drop j).isPrefixOf p = false) →
      ∀ X, hasSubstr p X = false → hasSubstr p (w ++ X) = false := by
  intro w
  induction w with
  | nil => intro _ _ X hX; simpa using hX
  | cons c w' ih =>
    intro hw hdrops X hX
    have hw' := hasSubstr_cons_false p c w' hw
    have htail : hasSubstr p (w' ++ X) = false := by
      refine ih hw'.2 ?_ X hX
      intro j hj
      have := hdrops (j + 1) (by simpa using Nat.succ_lt_succ hj)
      simpa using this
    rw [List.cons_append, hasSubstr, htail, Bool.or_false]
    by_cases hpre : p.isPrefixOf (c :: (w' ++ X)) = true
    · exfalso
      rcases le_or_lt p.length (c :: w').length with hle | hlt
      · have hpw : p.isPrefixOf (c :: w') = true := by
          have := isPrefixOf_append_left p (c :: w') X (by simpa using hpre) hle
          exact this
        rw [hpw] at hw'
        exact absurd hw'.1 (by simp)
      · have hwp : (c :: w').isPrefixOf p = true := by
          refine isPrefixOf_append_swap (c :: w') p X (by simpa using hpre) ?_
          omega
        have h0 := hdrops 0 (by simp)
        rw [List.drop_zero] at h0
        rw [hwp] at h0
        exact absurd h0 (by simp)
    · rw [Bool.not_eq_true] at hpre
      exact hpre

/-- The output of replacement is free of the pattern, under the overlap
side-conditions satisfied by the search_path rewrite rule. -/
theorem replaceAllFuel_hasSubstr_false (p r : List Char) (hp : p ≠ [])
    (hlen : p.length ≤ r.length)
    (hrfree : hasSubstr p r = false)
    (hps : ∀ k, k < p.length → 0 < k → (p.drop k).isPrefixOf r = false)
    (hns : ∀ j, j < r.length → (r.drop j).isPrefixOf p = false) :
    ∀ fuel s, s.length ≤ fuel → hasSubstr p (replaceAllFuel p r fuel s) = false := by
  intro fuel
  induction fuel with
  | zero =>
    intro s hs
    have hs0 : s = [] := List.eq_nil_of_length_eq_zero (Nat.le_zero.mp hs)
    subst hs0
    simp [replaceAllFuel, hasSubstr, hp]
  | succ n ih =>
    intro s hs
    cases s with
    | nil => simp [replaceAllFuel, hasSubstr, hp]
    | cons c t =>
      have hlt : t.length ≤ n := by
        simpa using Nat.le_of_succ_le_succ hs
      by_cases hcond : p ≠ [] ∧ p.isPrefixOf (c :: t)
      · rw [replaceAllFuel, if_pos hcond]
        refine hasSubstr_append_false p hp r hrfree hns _ (ih _ ?_)
        have hd : (t.drop (p.length - 1)).length ≤ t.length := by
          rw [List.length_drop]
          omega
        omega
      · rw [replaceAllFuel, if_neg hcond]
        have htail := ih t hlt
        rw [hasSubstr, htail, Bool.or_false]
        by_cases hpre : p.isPrefixOf (c :: replaceAllFuel p r n t) = true
        · exfalso
          cases p with
          | nil => exact hp rfl
          | cons ph pt =>
            rw [List.isPrefixOf_cons₂, Bool.and_eq_true] at hpre
            have hptt : pt.isPrefixOf t = true := by
              rcases Nat.lt_or_ge 1 (ph :: pt).length with h1 | h1
              · exact replaceAllFuel_drop_isPrefixOf (ph :: pt) r hlen hrfree hps
                  n t 1 h1 (by simpa using hpre.2)
              · have hpt0 : pt = [] := by
                  rw [List.length_cons] at h1
                  exact List.eq_nil_of_length_eq_zero (by omega)
                rw [hpt0]
                simp
            refine hcond ⟨by simp, ?_⟩
            rw [List.isPrefixOf_cons₂, Bool.and_eq_true]
            exact ⟨hpre.1, hptt⟩
        · rw [Bool.not_eq_true] at hpre
          exact hpre

/-- The search_path rewrite is idempotent on every input: its replacement
text never recreates its pattern. -/
theorem replaceAll_searchPath_idem (s : List Char) :
    replaceAll spPat spRepl (replaceAll spPat spRepl s) =
      replaceAll spPat spRepl s := by
  have hfree : hasSubstr spPat (replaceAll spPat spRepl s) = false :=
    replaceAllFuel_hasSubstr_false spPat spRepl (by decide) (by decide)
      (by decide) (by decide) (by decide) s.length s (Nat.le_refl _)
  exact replaceAllFuel_of_not_hasSubstr spPat spRepl _ _ hfree

/-- C4 (counterexample): the claim that re-running `Preprocess` on its own
output produces no further change for the two settings-rewrite rules is false
at the concrete chunk `SET transaction_timeout = 0;` — the first pass yields
the commented line, which still contains the pattern, so the second pass
rewrites it again. -/
theorem c4_counterexample :
    transformChunkP4 (transformChunkP4 ttPat) ≠ transformChunkP4 ttPat := by
  decide

/-- C4 (amended): the search_path settings-rewrite rule is idempotent on every
chunk, but the transaction_timeout commenting rule is not (a second run
comments the already-commented line again), and the quote-escaping step is not
idempotent either: re-running it on an already-escaped quote doubles it again
(two quotes become four). -/
theorem c4_amended :
    (∀ s : List Char, replaceAll spPat spRepl (replaceAll spPat spRepl s) =
      replaceAll spPat spRepl s) ∧
    transformChunkP4 (transformChunkP4 ttPat) ≠ transformChunkP4 ttPat ∧
    replaceAll quotePat quoteRepl quotePat = quoteRepl ∧
    replaceAll quotePat quoteRepl quoteRepl = [sqChar, sqChar, sqChar, sqChar] := by
  refine ⟨replaceAll_searchPath_idem, ?_, ?_, ?_⟩
  · decide
  · decide
  · decide

theorem isPrefixOf_append_elim :
    ∀ (a b s : List Char), (a ++ b).isPrefixOf s = true → a.isPrefixOf s = true
  | [], _, _, _ => by simp
  | x :: as, b, [], h => by simp at h
  | x :: as, b, y :: t, h => by
    rw [List.cons_append, List.isPrefixOf_cons₂, Bool.and_eq_true] at h
    rw [List.isPrefixOf_cons₂, Bool.and_eq_true]
    exact ⟨h.1, isPrefixOf_append_elim as b t h.2⟩

/-- A successful regex match implies that the `includes` guard in front of it
succeeds as well. -/
theorem findVersionNum_hasSubstr :
    ∀ (l : List Char) (v : Nat), findVersionNum l = some v →
      hasSubstr versionMarker l = true := by
  intro l
  induction l with
  | nil => intro v h; simp [findVersionNum] at h
  | cons c rest ih =>
    intro v h
    rw [findVersionNum] at h
    by_cases hpre : versionMarkerSp.isPrefixOf (c :: rest) = true
    · rw [if_pos hpre] at h
      have hm : versionMarker.isPrefixOf (c :: rest) = true :=
        isPrefixOf_append_elim versionMarker [' '] (c :: rest) hpre
      rw [hasSubstr, hm]
      simp
    · rw [if_neg (by simpa using hpre)] at h
      by_cases hh : hasSubstr versionMarker rest = true
      · rw [hasSubstr, hh]
        simp
      · exfalso
        exact hh (ih v h)

theorem scanLineStep_hasTable (st : DumpScanState) (l : List Char) :
    (scanLineStep st l).hasTableDefinitions =
      (st.hasTableDefinitions || hasSubstr createTablePat l) := by
  unfold scanLineStep
  by_cases h1 : hasSubstr createTablePat l = true <;>
    by_cases h2 : hasSubstr insertIntoPat l = true <;>
      by_cases h3 : hasSubstr versionMarker l = true <;>
        simp [h1, h2, h3] <;> cases hf : findVersionNum l <;> simp

theorem scanLineStep_hasData (st : DumpScanState) (l : List Char) :
    (scanLineStep st l).hasData = (st.hasData || hasSubstr insertIntoPat l) := by
  unfold scanLineStep
  by_cases h1 : hasSubstr createTablePat l = true <;>
    by_cases h2 : hasSubstr insertIntoPat l = true <;>
      by_cases h3 : hasSubstr versionMarker l = true <;>
        simp [h1, h2, h3] <;> cases hf : findVersionNum l <;> simp

theorem scanLineStep_pgVersion (st : DumpScanState) (l : List Char) :
    (scanLineStep st l).pgVersion = versionUpd st.pgVersion l := by
  unfold scanLineStep versionUpd
  by_cases h3 : hasSubstr versionMarker l = true
  · by_cases h1 : hasSubstr createTablePat l = true <;>
      by_cases h2 : hasSubstr insertIntoPat l = true <;>
        cases hf : findVersionNum l <;> simp [h1, h2, h3, hf]
  · cases hf : findVersionNum l with
    | none =>
      by_cases h1 : hasSubstr createTablePat l = true <;>
        by_cases h2 : hasSubstr insertIntoPat l = true <;> simp [h1, h2, h3, hf]
    | some v =>
      exact absurd (findVersionNum_hasSubstr l v hf) (by simpa using h3)

theorem scanFoldSpec_hasTable (ls : List (List Char)) : ∀ st,
    (scanFoldSpec st ls).hasTableDefinitions =
      (st.hasTableDefinitions || ls.any (hasSubstr createTablePat)) := by
  induction ls with
  | nil => intro st; simp [scanFoldSpec]
  | cons l ls ih =>
    intro st
    rw [scanFoldSpec, ih, scanLineStep_hasTable]
    simp [Bool.or_assoc]

theorem scanFoldSpec_hasData (ls : List (List Char)) : ∀ st,
    (scanFoldSpec st ls).hasData = (st.hasData || ls.any (hasSubstr insertIntoPat)) := by
  induction ls with
  | nil => intro st; simp [scanFoldSpec]
  | cons l ls ih =>
    intro st
    rw [scanFoldSpec, ih, scanLineStep_hasData]
    simp [Bool.or_assoc]

theorem scanFoldSpec_pgVersion (ls : List (List Char)) : ∀ st,
    (scanFoldSpec st ls).pgVersion = ls.foldl versionUpd st.pgVersion := by
  induction ls with
  | nil => intro st; simp [scanFoldSpec, List.foldl]
  | cons l ls ih =>
    intro st
    rw [scanFoldSpec, ih, List.foldl_cons, scanLineStep_pgVersion]

/-- The early-exit scan computes the no-break scan of some prefix, and stops
early only once all three signals are (truthily) present. -/
theorem scanLinesAux_take (ls : List (List Char)) : ∀ st,
    ∃ k, k ≤ ls.length ∧ scanLinesAux st ls = scanFoldSpec st (ls.take k) ∧
      (k = ls.length ∨ scanDone (scanFoldSpec st (ls.take k)) = true) := by
  induction ls with
  | nil =>
    intro st
    exact ⟨0, Nat.le_refl _, rfl, Or.inl rfl⟩
  | cons l ls ih =>
    intro st
    by_cases hdone : scanDone (scanLineStep st l) = true
    · refine ⟨1, by simp, ?_, Or.inr ?_⟩
      · rw [scanLinesAux, if_pos hdone]
        rfl
      · simpa [scanFoldSpec] using hdone
    · obtain ⟨k, hk, heq, hstop⟩ := ih (scanLineStep st l)
      refine ⟨k + 1, by simpa using Nat.succ_le_succ hk, ?_, ?_⟩
      · rw [scanLinesAux, if_neg hdone, List.take_succ_cons, scanFoldSpec, heq]
      · rcases hstop with h | h
        · exact Or.inl (by simpa using congrArg Nat.succ h)
        · exact Or.inr (by simpa [List.take_succ_cons, scanFoldSpec] using h)

/-- C9 (counterexample): the claim that `validateDump` returns its
well-formedness flag `isValid` true exactly when all three signals were found
is false for the part_004 implementation at the one-line dump `hello`: no
signal occurs, yet `isValid` is `true` (the source sets it unconditionally). -/
theorem c9_counterexample :
    (validateDumpP4 ["hello".data]).isValid = true ∧
    (validateDumpP4 ["hello".data]).hasTableDefinitions = false ∧
    (validateDumpP4 ["hello".data]).hasData = false ∧
    (validateDumpP4 ["hello".data]).pgVersion = none := by
  decide

/-- C9 (amended): the scan visits a prefix of the lines and stops early only
once all three signals are (truthily) present; over the scanned prefix,
`hasTableDefinitions` / `hasData` hold exactly when some scanned line contains
the corresponding pattern and `pgVersion` is the last parsed version number
(none if absent).  The part_003 implementation computes `isValid` as the
JavaScript-truthy conjunction of the three signals (so a parsed version `0` is
falsy), while the part_004 implementation sets `isValid` to `true`
unconditionally. -/
theorem c9_amended :
    (∀ lines : List (List Char), ∃ k, k ≤ lines.length ∧
        scanLinesAux initScanState lines =
          scanFoldSpec initScanState (lines.take k) ∧
        (k = lines.length ∨
          scanDone (scanFoldSpec initScanState (lines.take k)) = true)) ∧
    (∀ pre : List (List Char),
        (scanFoldSpec initScanState pre).hasTableDefinitions =
          pre.any (hasSubstr createTablePat) ∧
        (scanFoldSpec initScanState pre).hasData =
          pre.any (hasSubstr insertIntoPat) ∧
        (scanFoldSpec initScanState pre).pgVersion = pre.foldl versionUpd none) ∧
    (∀ lines : List (List Char),
        (validateDumpP3 lines).isValid =
          ((validateDumpP3 lines).hasTableDefinitions &&
            (validateDumpP3 lines).hasData &&
            truthyVersion (validateDumpP3 lines).pgVersion) ∧
        (validateDumpP4 lines).isValid = true) := by
  refine ⟨fun lines => scanLinesAux_take lines initScanState, fun pre => ⟨?_, ?_, ?_⟩,
    fun lines => ⟨?_, ?_⟩⟩
  · rw [scanFoldSpec_hasTable]
    rfl
  · rw [scanFoldSpec_hasData]
    rfl
  · rw [scanFoldSpec_pgVersion]
    rfl
  · rfl
  · rfl

theorem applyMasks_tables (f : String → String → String → Bool) (exact : String) :
    ∀ (masks : List (String × String)) (db : DB),
      (applyMasks f exact masks db).db.tables = db.tables := by
  intro masks
  induction masks with
  | nil => intro db; rfl
  | cons cm rest ih =>
    intro db
    obtain ⟨col, fn⟩ := cm
    unfold applyMasks
    by_cases h : f exact col fn = true
    · rw [if_pos h]
    · rw [if_neg h]
      exact ih _

theorem applyMasks_ops (f : String → String → String → Bool) (exact : String) :
    ∀ (masks : List (String × String)) (db : DB) (q : Query),
      q ∈ (applyMasks f exact masks db).trace →
        ∃ c m, q = Query.secLabel exact c m := by
  intro masks
  induction masks with
  | nil => intro db q h; simp [applyMasks] at h
  | cons cm rest ih =>
    intro db q h
    obtain ⟨col, fn⟩ := cm
    unfold applyMasks at h
    by_cases hf : f exact col fn = true
    · rw [if_pos hf] at h
      simp only [List.mem_singleton] at h
      exact ⟨col, fn, h⟩
    · rw [if_neg hf] at h
      simp only [List.mem_cons] at h
      rcases h with h | h
      · exact ⟨col, fn, h⟩
      · exact ih _ q h

theorem processRule_exactTableName (f : String → String → String → Bool)
    (rules : RuleSet) (n : String) (sess : Session) :
    (processRule f rules n sess).sess.exactTableName = sess.exactTableName := by
  unfold processRule
  split
  · rfl
  · split
    · rfl
    · rfl

theorem processRule_tables (f : String → String → String → Bool)
    (rules : RuleSet) (n : String) (sess : Session) :
    (processRule f rules n sess).sess.work.tables = sess.work.tables := by
  unfold processRule
  split
  · rfl
  · split
    · rfl
    · exact applyMasks_tables f _ _ sess.work

theorem processRule_ops (f : String → String → String → Bool) (rules : RuleSet)
    (n : String) (sess : Session) (q : Query)
    (h : q ∈ (processRule f rules n sess).trace) :
    ∃ c m, q = Query.secLabel (sess.exactTableName.getD "undefined") c m := by
  unfold processRule at h
  split at h
  · simp at h
  · split at h
    · simp at h
    · exact applyMasks_ops f _ _ sess.work q h

/-- After a successful `validateTable`, the whole iteration works on the
resolved exact stored name: the instance field holds it, and every statement
of the iteration is the lookup, a `SECURITY LABEL` on the exact name, or the
row count of the exact name. -/
theorem runIteration_validated (f : String → String → String → Bool)
    (rules : RuleSet) (n : String) (sess : Session) (exact : String)
    (hv : validateTableQuery sess.work.tables n = some exact) :
    (runIteration f rules n sess).sess.exactTableName = some exact ∧
    ∀ q ∈ (runIteration f rules n sess).trace,
      q = Query.lookupTable n ∨ (∃ c m, q = Query.secLabel exact c m) ∨
        q = Query.countRows exact := by
  unfold runIteration
  rw [hv]
  dsimp only
  have hex : (processRule f rules n { sess with exactTableName := some exact }).sess.exactTableName
      = some exact := processRule_exactTableName f rules n _
  have hops : ∀ q ∈ (processRule f rules n { sess with exactTableName := some exact }).trace,
      ∃ c m, q = Query.secLabel exact c m := by
    intro q hq
    have := processRule_ops f rules n _ q hq
    simpa using this
  by_cases hok : (processRule f rules n { sess with exactTableName := some exact }).ok = true
  · rw [if_pos hok]
    rw [hex]
    simp only [Option.getD_some]
    cases hc : verifyMasking (processRule f rules n { sess with exactTableName := some exact }).sess n with
    | some cnt =>
      refine ⟨hex, ?_⟩
      intro q hq
      simp only [List.mem_cons, List.mem_append, List.mem_singleton] at hq
      rcases hq with h | h | h
      · exact Or.inl h
      · exact Or.inr (Or.inl (hops q h))
      · rcases h with h | h
        · exact Or.inr (Or.inr h)
        · simp at h
    | none =>
      refine ⟨hex, ?_⟩
      intro q hq
      simp only [List.mem_cons, List.mem_append, List.mem_singleton] at hq
      rcases hq with h | h | h
      · exact Or.inl h
      · exact Or.inr (Or.inl (hops q h))
      · rcases h with h | h
        · exact Or.inr (Or.inr h)
        · simp at h
  · rw [if_neg hok]
    refine ⟨hex, ?_⟩
    intro q hq
    simp only [List.mem_cons] at hq
    rcases hq with h | h
    · exact Or.inl h
    · exact Or.inr (Or.inl (hops q h))

theorem runIteration_tables (f : String → String → String → Bool)
    (rules : RuleSet) (n : String) (sess : Session) :
    (runIteration f rules n sess).sess.work.tables = sess.work.tables := by
  unfold runIteration
  cases hv : validateTableQuery sess.work.tables n with
  | none => rfl
  | some exact =>
    dsimp only
    have ht := processRule_tables f rules n { sess with exactTableName := some exact }
    by_cases hok : (processRule f rules n { sess with exactTableName := some exact }).ok = true
    · rw [if_pos hok]
      cases hc : verifyMasking (processRule f rules n { sess with exactTableName := some exact }).sess n with
      | some cnt => simpa using ht
      | none => simpa using ht
    · rw [if_neg hok]
      simpa using ht

theorem runIteration_txnFree (f : String → String → String → Bool)
    (rules : RuleSet) (n : String) (sess : Session) :
    (runIteration f rules n sess).trace.all txnFree = true := by
  rw [List.all_eq_true]
  intro q hq
  cases hv : validateTableQuery sess.work.tables n with
  | none =>
    unfold runIteration at hq
    rw [hv] at hq
    simp only [List.mem_singleton] at hq
    subst hq
    rfl
  | some exact =>
    have := (runIteration_validated f rules n sess exact hv).2 q hq
    rcases this with h | ⟨c, m, h⟩ | h <;> subst h <;> rfl

theorem processLoop_txnFree (f : String → String → String → Bool) (rules : RuleSet) :
    ∀ (its : List (String × TableRule)) (sess : Session),
      (processLoop f rules its sess).trace.all txnFree = true := by
  intro its
  induction its with
  | nil => intro sess; rfl
  | cons e rest ih =>
    intro sess
    obtain ⟨n, tr⟩ := e
    unfold processLoop
    by_cases hok : (runIteration f rules n sess).ok = true
    · rw [if_pos hok]
      simp only [List.all_append, Bool.and_eq_true]
      exact ⟨runIteration_txnFree f rules n sess, ih _⟩
    · rw [if_neg hok]
      exact runIteration_txnFree f rules n sess

theorem processLoop_tables (f : String → String → String → Bool) (rules : RuleSet) :
    ∀ (its : List (String × TableRule)) (sess : Session),
      (processLoop f rules its sess).sess.work.tables = sess.work.tables := by
  intro its
  induction its with
  | nil => intro sess; rfl
  | cons e rest ih =>
    intro sess
    obtain ⟨n, tr⟩ := e
    unfold processLoop
    by_cases hok : (runIteration f rules n sess).ok = true
    · rw [if_pos hok]
      rw [ih _]
      exact runIteration_tables f rules n sess
    · rw [if_neg hok]
      exact runIteration_tables f rules n sess

theorem validateTableQuery_some (T : List String) (name exact : String)
    (h : validateTableQuery T name = some exact) :
    exact ∈ T ∧ lowerName exact = lowerName name := by
  unfold validateTableQuery at h
  refine ⟨List.mem_of_find?_eq_some h, ?_⟩
  have := List.find?_some h
  rwa [beq_iff_eq] at this

theorem validateTableQuery_none (T : List String) (name : String)
    (h : validateTableQuery T name = none) :
    ∀ t ∈ T, lowerName t ≠ lowerName name := by
  intro t ht
  unfold validateTableQuery at h
  have := List.find?_eq_none.mp h t ht
  simpa [beq_iff_eq] using this

theorem validateTableQuery_none_of_nomatch (T : List String) (name : String)
    (h : ∀ t ∈ T, lowerName t ≠ lowerName name) :
    validateTableQuery T name = none := by
  unfold validateTableQuery
  rw [List.find?_eq_none]
  intro t ht
  simpa [beq_iff_eq] using h t ht

/-- Deleting a key that `n` differs from does not change a lookup for `n`. -/
theorem find?_entry_skip (name : String) (tr : TableRule) :
    ∀ (pre post : List (String × TableRule)) (n : String), n ≠ name →
      (pre ++ (name, tr) :: post).find? (fun e => e.1 == n) =
        (pre ++ post).find? (fun e => e.1 == n) := by
  intro pre
  induction pre with
  | nil =>
    intro post n hne
    simp only [List.nil_append, List.find?_cons]
    have : ((name, tr).1 == n) = false := by
      simp only [beq_eq_false_iff_ne]
      exact fun h => hne h.symm
    rw [this]
  | cons e pre' ih =>
    intro post n hne
    simp only [List.cons_append, List.find?_cons]
    cases he : (e.1 == n) with
    | true => rfl
    | false => exact ih post n hne

theorem processRule_congr (f : String → String → String → Bool)
    (M1 M2 : RuleSet) (n : String) (sess : Session)
    (h : M1.find? (fun e => e.1 == n) = M2.find? (fun e => e.1 == n)) :
    processRule f M1 n sess = processRule f M2 n sess := by
  unfold processRule
  rw [h]

theorem runIteration_congr (f : String → String → String → Bool)
    (M1 M2 : RuleSet) (n : String) (sess : Session)
    (h : M1.find? (fun e => e.1 == n) = M2.find? (fun e => e.1 == n)) :
    runIteration f M1 n sess = runIteration f M2 n sess := by
  unfold runIteration
  have hc : ∀ s : Session, processRule f M1 n s = processRule f M2 n s :=
    fun s => processRule_congr f M1 M2 n s h
  simp only [hc]

/-- The loop result does not depend on rule-map entries for names that do not
resolve against the live schema. -/
theorem processLoop_congr (f : String → String → String → Bool)
    (M1 M2 : RuleSet) (T : List String)
    (h : ∀ n, validateTableQuery T n ≠ none →
      M1.find? (fun e => e.1 == n) = M2.find? (fun e => e.1 == n)) :
    ∀ (its : List (String × TableRule)) (sess : Session), sess.work.tables = T →
      processLoop f M1 its sess = processLoop f M2 its sess := by
  intro its
  induction its with
  | nil => intro sess _; rfl
  | cons e rest ih =>
    intro sess hT
    obtain ⟨n, tr⟩ := e
    have hiter : runIteration f M1 n sess = runIteration f M2 n sess := by
      cases hv : validateTableQuery sess.work.tables n with
      | none =>
        unfold runIteration
        rw [hv]
      | some exact =>
        refine runIteration_congr f M1 M2 n sess (h n ?_)
        rw [← hT]
        rw [hv]
        simp
    unfold processLoop
    rw [hiter]
    by_cases hok : (runIteration f M2 n sess).ok = true
    · rw [if_pos hok, if_pos hok]
      rw [ih (runIteration f M2 n sess).sess (by rw [runIteration_tables, hT])]
    · rw [if_neg hok, if_neg hok]

/-- Dropping from the iteration list an entry whose table does not resolve
changes neither the final session nor the outcome of the loop. -/
theorem processLoop_skip_entry (f : String → String → String → Bool)
    (M : RuleSet) (name : String) (tr : TableRule) (T : List String)
    (hmiss : validateTableQuery T name = none) :
    ∀ (pre post : List (String × TableRule)) (sess : Session),
      sess.work.tables = T →
      (processLoop f M (pre ++ (name, tr) :: post) sess).sess =
        (processLoop f M (pre ++ post) sess).sess ∧
      (processLoop f M (pre ++ (name, tr) :: post) sess).ok =
        (processLoop f M (pre ++ post) sess).ok := by
  intro pre
  induction pre with
  | nil =>
    intro post sess hT
    have hv : validateTableQuery sess.work.tables name = none := by rw [hT]; exact hmiss
    have hiter : runIteration f M name sess =
        ⟨sess, [Query.lookupTable name], true⟩ := by
      unfold runIteration
      rw [hv]
    simp only [List.nil_append]
    rw [processLoop, hiter]
    simp only [if_pos rfl]
    exact ⟨rfl, rfl⟩
  | cons e pre' ih =>
    intro post sess hT
    obtain ⟨n, tr'⟩ := e
    simp only [List.cons_append]
    rw [processLoop, processLoop]
    by_cases hok : (runIteration f M n sess).ok = true
    · rw [if_pos hok, if_pos hok]
      have := ih post (runIteration f M n sess).sess (by rw [runIteration_tables, hT])
      exact ⟨this.1, this.2⟩
    · rw [if_neg hok, if_neg hok]
      exact ⟨rfl, rfl⟩

theorem processRules_ok (f : String → String → String → Bool) (db : DB)
    (rules : RuleSet) (h : rules.isEmpty = false) :
    (processRules f db rules).ok = (processLoop f rules rules ⟨db, none⟩).ok := by
  unfold processRules
  rw [if_neg (by simp [h])]
  dsimp only
  cases hb : (processLoop f rules rules ⟨db, none⟩).ok with
  | false => rfl
  | true => rfl

theorem processRules_committed (f : String → String → String → Bool) (db : DB)
    (rules : RuleSet) (h : rules.isEmpty = false) :
    (processRules f db rules).committed =
      (if (processLoop f rules rules ⟨db, none⟩).ok = true
       then (processLoop f rules rules ⟨db, none⟩).sess.work else db) := by
  unfold processRules
  rw [if_neg (by simp [h])]
  dsimp only
  cases hb : (processLoop f rules rules ⟨db, none⟩).ok with
  | false => rfl
  | true => rfl

/-- C1: for every nonempty RuleSet, `processRules` runs the whole rule
application inside one transaction: the trace starts with a single `BEGIN`;
on success it is `BEGIN`, a transaction-control-free body (table resolution,
mask bindings, verification), then one `COMMIT`; on any failure it is
`BEGIN`, body, `ROLLBACK`, and the committed database equals the initial one,
so no mask binding made during the run persists and no partial-success state
is visible afterwards. -/
theorem c1_single_transaction (labelFails : String → String → String → Bool)
    (db : DB) (rules : RuleSet) (hne : rules ≠ []) :
    (processRules labelFails db rules).trace.head? = some Query.beginTxn ∧
    ((processRules labelFails db rules).ok = true →
      ∃ mid, (processRules labelFails db rules).trace =
          Query.beginTxn :: (mid ++ [Query.commitTxn]) ∧ mid.all txnFree = true) ∧
    ((processRules labelFails db rules).ok = false →
      (processRules labelFails db rules).committed = db ∧
      ∃ mid, (processRules labelFails db rules).trace =
          Query.beginTxn :: (mid ++ [Query.rollbackTxn]) ∧ mid.all txnFree = true) := by
  have hemp : rules.isEmpty = false := by
    cases rules with
    | nil => exact absurd rfl hne
    | cons a l => rfl
  unfold processRules
  rw [if_neg (by simp [hemp])]
  dsimp only
  by_cases hok : (processLoop labelFails rules rules ⟨db, none⟩).ok = true
  · rw [if_pos hok]
    refine ⟨rfl, fun _ => ?_, fun hfalse => by simp at hfalse⟩
    exact ⟨(processLoop labelFails rules rules ⟨db, none⟩).trace, rfl,
      processLoop_txnFree labelFails rules rules ⟨db, none⟩⟩
  · rw [if_neg hok]
    refine ⟨rfl, fun htrue => by simp at htrue, fun _ => ?_⟩
    exact ⟨rfl, (processLoop labelFails rules rules ⟨db, none⟩).trace, rfl,
      processLoop_txnFree labelFails rules rules ⟨db, none⟩⟩

theorem c1_witness :
    (processRules (fun _ _ _ => false) ⟨["users"], [], [("users", 2)]⟩
      [("users", ⟨some [("email", "anon.fake_email()")]⟩)]).trace.head? =
      some Query.beginTxn :=
  (c1_single_transaction (fun _ _ _ => false) ⟨["users"], [], [("users", 2)]⟩
    [("users", ⟨some [("email", "anon.fake_email()")]⟩)] (by simp)).1

/-- C2: a rule-set entry whose table name has no case-insensitive match among
the live public tables is skipped without raising an error: the run outcome
and the committed database are the same as for the rule set without the
entry, and a rule set containing only the missing table still commits
successfully and changes nothing. -/
theorem c2_missing_table_never_fatal (f : String → String → String → Bool)
    (db : DB) (name : String) (tr : TableRule) (pre post : RuleSet)
    (hnomatch : ∀ t ∈ db.tables, lowerName t ≠ lowerName name) :
    (pre ++ post ≠ [] →
      (processRules f db (pre ++ (name, tr) :: post)).ok =
        (processRules f db (pre ++ post)).ok ∧
      (processRules f db (pre ++ (name, tr) :: post)).committed =
        (processRules f db (pre ++ post)).committed) ∧
    processRules f db [(name, tr)] =
      ⟨db, [Query.beginTxn, Query.lookupTable name, Query.commitTxn], true⟩ := by
  have hmiss : validateTableQuery db.tables name = none :=
    validateTableQuery_none_of_nomatch _ _ hnomatch
  constructor
  · intro hne2
    have hM1ne : (pre ++ (name, tr) :: post).isEmpty = false := by
      cases pre with
      | nil => rfl
      | cons a l => rfl
    have hM2ne : (pre ++ post).isEmpty = false := by
      cases h2 : pre ++ post with
      | nil => exact absurd h2 hne2
      | cons a l => rfl
    have hcongr : ∀ n, validateTableQuery db.tables n ≠ none →
        (pre ++ (name, tr) :: post).find? (fun e => e.1 == n) =
          (pre ++ post).find? (fun e => e.1 == n) := by
      intro n hv
      refine find?_entry_skip name tr pre post n ?_
      intro heq
      rw [heq] at hv
      exact hv hmiss
    have hstep1 : processLoop f (pre ++ (name, tr) :: post)
        (pre ++ (name, tr) :: post) ⟨db, none⟩ =
        processLoop f (pre ++ post) (pre ++ (name, tr) :: post) ⟨db, none⟩ :=
      processLoop_congr f _ _ db.tables hcongr _ _ rfl
    have hstep2 := processLoop_skip_entry f (pre ++ post) name tr db.tables
      hmiss pre post ⟨db, none⟩ rfl
    rw [processRules_ok f db _ hM1ne, processRules_ok f db _ hM2ne,
      processRules_committed f db _ hM1ne, processRules_committed f db _ hM2ne]
    rw [hstep1]
    rcases hstep2 with ⟨hsess, hok⟩
    rw [hsess, hok]
    exact ⟨rfl, rfl⟩
  · have hv0 : validateTableQuery
        (Session.work ⟨db, none⟩).tables name = none := hmiss
    simp [processRules, processLoop, runIteration, hv0]

theorem c2_witness :
    processRules (fun _ _ _ => false) ⟨["users"], [], []⟩
      [("missing", ⟨some [("a", "anon.random()")]⟩)] =
      ⟨⟨["users"], [], []⟩, [Query.beginTxn, Query.lookupTable "missing",
        Query.commitTxn], true⟩ :=
  (c2_missing_table_never_fatal (fun _ _ _ => false) ⟨["users"], [], []⟩
    "missing" ⟨some [("a", "anon.random()")]⟩ [] [] (by decide)).2

/-- C3: `validateTable` resolves table names case-insensitively against the
live schema and returns the schema's stored casing: a resolved name is a
live public table whose lowered name equals the lowered input (so a rule
written `Users` matches a stored `users`); no resolution means no live table
matches; and the resolved exact stored name is what the iteration's mask
bindings and row-count verification subsequently use. -/
theorem c3_case_insensitive_resolution :
    (∀ (T : List String) (name exact : String),
        validateTableQuery T name = some exact →
          exact ∈ T ∧ lowerName exact = lowerName name) ∧
    (∀ (T : List String) (name : String),
        validateTableQuery T name = none →
          ∀ t ∈ T, lowerName t ≠ lowerName name) ∧
    (∀ (f : String → String → String → Bool) (rules : RuleSet) (n : String)
        (sess : Session) (exact : String),
        validateTableQuery sess.work.tables n = some exact →
          (runIteration f rules n sess).sess.exactTableName = some exact ∧
          ∀ q ∈ (runIteration f rules n sess).trace,
            q = Query.lookupTable n ∨ (∃ c m, q = Query.secLabel exact c m) ∨
              q = Query.countRows exact) :=
  ⟨validateTableQuery_some, validateTableQuery_none,
    fun f rules n sess exact hv => runIteration_validated f rules n sess exact hv⟩

theorem c3_witness :
    "users" ∈ ["users"] ∧ lowerName "users" = lowerName "Users" :=
  c3_case_insensitive_resolution.1 ["users"] "Users" "users" (by decide)

/-- C10: `verifyMasking` counts the rows of the instance field
`exactTableName` — its `tableName` parameter never influences which table is
counted — and within each loop iteration every `SECURITY LABEL` statement and
the row-count statement target exactly the name stored by that iteration's
`validateTable`. -/
theorem c10_exact_name_threading :
    (∀ (sess : Session) (t1 t2 : String),
        verifyMasking sess t1 = verifyMasking sess t2) ∧
    (∀ (f : String → String → String → Bool) (rules : RuleSet) (n : String)
        (sess : Session) (exact : String),
        validateTableQuery sess.work.tables n = some exact →
          ∀ q ∈ (runIteration f rules n sess).trace,
            (∀ t c m, q = Query.secLabel t c m → t = exact) ∧
            (∀ t, q = Query.countRows t → t = exact)) := by
  constructor
  · intro sess t1 t2
    rfl
  · intro f rules n sess exact hv q hq
    have hcases := (runIteration_validated f rules n sess exact hv).2 q hq
    constructor
    · intro t c m hqe
      rcases hcases with h | ⟨c2, m2, h⟩ | h
      · rw [hqe] at h
        simp at h
      · rw [hqe] at h
        simp only [Query.secLabel.injEq] at h
        exact h.1
      · rw [hqe] at h
        simp at h
    · intro t hqe
      rcases hcases with h | ⟨c2, m2, h⟩ | h
      · rw [hqe] at h
        simp at h
      · rw [hqe] at h
        simp at h
      · rw [hqe] at h
        simp only [Query.countRows.injEq] at h
        exact h

theorem c10_witness :
    verifyMasking ⟨⟨["users"], [], [("users", 2)]⟩, some "users"⟩ "x" =
      verifyMasking ⟨⟨["users"], [], [("users", 2)]⟩, some "users"⟩ "y" ∧
    "users" = "users" :=
  ⟨c10_exact_name_threading.1 ⟨⟨["users"], [], [("users", 2)]⟩, some "users"⟩ "x" "y",
   (c10_exact_name_threading.2 (fun _ _ _ => false)
      [("Users", ⟨some [("email", "anon.random()")]⟩)] "Users"
      ⟨⟨["users"], [], []⟩, none⟩ "users" (by decide)
      (Query.countRows "users") (by decide)).2 "users" rfl⟩

theorem waitCount_eq (o : Bool) (p1 p2 s1 s2 : Nat) (hp : p1 = p2)
    (hs : s1 = s2) : (⟨o, p1, s1⟩ : WaitCount) = ⟨o, p2, s2⟩ := by
  rw [hp, hs]

theorem wfpAux_success (connectOk : Nat → Bool) (maxRetries N : Nat)
    (hNmax : N ≤ maxRetries) (hN : connectOk N = true) :
    ∀ rem attempt, attempt + rem = maxRetries + 1 → attempt ≤ N →
      (∀ i, attempt ≤ i → i < N → connectOk i = false) →
      wfpAux connectOk maxRetries attempt rem =
        ⟨true, N + 1 - attempt, N - attempt⟩ := by
  intro rem
  induction rem with
  | zero => intro attempt hsum hle _; omega
  | succ rem ih =>
    intro attempt hsum hle hfalse
    by_cases hA : attempt = N
    · subst hA
      rw [wfpAux, if_pos hN]
      exact waitCount_eq _ _ _ _ _ (by first | omega | (dsimp only; omega)) (by first | omega | (dsimp only; omega))
    · have hlt : attempt < N := lt_of_le_of_ne hle hA
      have hPf : connectOk attempt = false := hfalse attempt (Nat.le_refl _) hlt
      have hAne : attempt ≠ maxRetries := by omega
      have hnm : ¬((attempt == maxRetries) = true) := by simpa using hAne
      rw [wfpAux, if_neg (by simp [hPf]), if_neg hnm]
      rw [ih (attempt + 1) (by omega) (by omega)
        (fun i h1 h2 => hfalse i (by omega) h2)]
      exact waitCount_eq _ _ _ _ _ (by first | omega | (dsimp only; omega)) (by first | omega | (dsimp only; omega))

theorem wfpAux_failure (connectOk : Nat → Bool) (maxRetries : Nat)
    (hfalse : ∀ i, 1 ≤ i → i ≤ maxRetries → connectOk i = false) :
    ∀ rem attempt, attempt + rem = maxRetries + 1 → 1 ≤ attempt →
      attempt ≤ maxRetries →
      wfpAux connectOk maxRetries attempt rem =
        ⟨false, maxRetries + 1 - attempt, maxRetries - attempt⟩ := by
  intro rem
  induction rem with
  | zero => intro attempt hsum h1 hle; omega
  | succ rem ih =>
    intro attempt hsum h1 hle
    have hPf : connectOk attempt = false := hfalse attempt h1 hle
    by_cases hA : attempt = maxRetries
    · subst hA
      rw [wfpAux, if_neg (by simp [hPf]), if_pos (by simp)]
      exact waitCount_eq _ _ _ _ _ (by first | omega | (dsimp only; omega)) (by first | omega | (dsimp only; omega))
    · have hnm : ¬((attempt == maxRetries) = true) := by simpa using hA
      rw [wfpAux, if_neg (by simp [hPf]), if_neg hnm]
      rw [ih (attempt + 1) (by omega) (by omega) (by omega)]
      exact waitCount_eq _ _ _ _ _ (by first | omega | (dsimp only; omega)) (by first | omega | (dsimp only; omega))

theorem wchG1Aux_success (statusOf : Nat → Option String) (M : Nat)
    (hM : (statusOf M == some "healthy") = true) :
    ∀ rem i, i ≤ M → M < i + rem →
      (∀ j, i ≤ j → j < M → (statusOf j == some "healthy") = false) →
      wchG1Aux statusOf i rem = ⟨true, M + 1 - i, M - i⟩ := by
  intro rem
  induction rem with
  | zero => intro i hle hlt _; omega
  | succ rem ih =>
    intro i hle hlt hfalse
    by_cases hA : i = M
    · subst hA
      rw [wchG1Aux, if_pos hM]
      exact waitCount_eq _ _ _ _ _ (by first | omega | (dsimp only; omega)) (by first | omega | (dsimp only; omega))
    · have hlt2 : i < M := lt_of_le_of_ne hle hA
      rw [wchG1Aux, if_neg (by simp [hfalse i (Nat.le_refl _) hlt2])]
      rw [ih (i + 1) (by omega) (by omega) (fun j h1 h2 => hfalse j (by omega) h2)]
      exact waitCount_eq _ _ _ _ _ (by first | omega | (dsimp only; omega)) (by first | omega | (dsimp only; omega))

theorem wchG1Aux_failure (statusOf : Nat → Option String) :
    ∀ rem i, (∀ j, i ≤ j → j < i + rem → (statusOf j == some "healthy") = false) →
      wchG1Aux statusOf i rem = ⟨false, rem, rem⟩ := by
  intro rem
  induction rem with
  | zero => intro i _; rfl
  | succ rem ih =>
    intro i hfalse
    rw [wchG1Aux, if_neg (by simp [hfalse i (Nat.le_refl _) (by omega)])]
    rw [ih (i + 1) (fun j h1 h2 => hfalse j (by omega) (by omega))]

/-- C5: the readiness waits poll at a fixed interval with a bounded attempt
count.  If the probe is not ready on the first `N - 1` attempts and ready on
attempt `N ≤ maxAttempts`, the wait returns success after exactly `N` probes
separated by `N - 1` fixed-interval sleeps; if the probe is never ready for
the maximum number of attempts, the wait fails after exactly the maximum
number of probes and performs no further probing.  This holds for the
database-connectivity wait (`waitForPostgres`) and for the container health
wait. -/
theorem c5_readiness_waits :
    (∀ (connectOk : Nat → Bool) (maxRetries N : Nat), 1 ≤ N → N ≤ maxRetries →
      (∀ i, 1 ≤ i → i < N → connectOk i = false) → connectOk N = true →
      waitForPostgres connectOk maxRetries = ⟨true, N, N - 1⟩) ∧
    (∀ (connectOk : Nat → Bool) (maxRetries : Nat), 1 ≤ maxRetries →
      (∀ i, 1 ≤ i → i ≤ maxRetries → connectOk i = false) →
      waitForPostgres connectOk maxRetries = ⟨false, maxRetries, maxRetries - 1⟩) ∧
    (∀ (statusOf : Nat → Option String) (M : Nat), M < 30 →
      (∀ j, j < M → (statusOf j == some "healthy") = false) →
      (statusOf M == some "healthy") = true →
      waitForContainerHealthG1 statusOf = ⟨true, M + 1, M⟩) ∧
    (∀ (statusOf : Nat → Option String),
      (∀ j, j < 30 → (statusOf j == some "healthy") = false) →
      waitForContainerHealthG1 statusOf = ⟨false, 30, 30⟩) := by
  refine ⟨?_, ?_, ?_, ?_⟩
  · intro connectOk maxRetries N h1 h2 hf hN
    unfold waitForPostgres
    rw [wfpAux_success connectOk maxRetries N h2 hN maxRetries 1 (by omega) h1
      (fun i hi1 hi2 => hf i hi1 hi2)]
    exact waitCount_eq _ _ _ _ _ (by first | omega | (dsimp only; omega)) (by first | omega | (dsimp only; omega))
  · intro connectOk maxRetries h1 hf
    unfold waitForPostgres
    rw [wfpAux_failure connectOk maxRetries hf maxRetries 1 (by omega)
      (Nat.le_refl _) h1]
    exact waitCount_eq _ _ _ _ _ (by first | omega | (dsimp only; omega)) (by first | omega | (dsimp only; omega))
  · intro statusOf M hM hf hhealthy
    unfold waitForContainerHealthG1
    rw [wchG1Aux_success statusOf M hhealthy 30 0 (by omega) (by omega)
      (fun j _ h2 => hf j h2)]
    exact waitCount_eq _ _ _ _ _ (by first | omega | (dsimp only; omega)) (by first | omega | (dsimp only; omega))
  · intro statusOf hf
    unfold waitForContainerHealthG1
    exact wchG1Aux_failure statusOf 30 0 (fun j _ h2 => hf j (by omega))

theorem c5_witness :
    waitForPostgres (fun i => i == 3) 5 = ⟨true, 3, 2⟩ :=
  c5_readiness_waits.1 (fun i => i == 3) 5 3 (by omega) (by omega)
    (by
      intro i h1 h2
      have hne3 : i ≠ 3 := by omega
      simpa using hne3)
    (by decide)

theorem wch5Aux_success (inspect : Nat → CState) (M : Nat)
    (hM : healthyObs (inspect M) = true) (hM30 : M < 30) :
    ∀ rem i, i + rem = 30 → i ≤ M →
      (∀ j, i ≤ j → j < M → healthyObs (inspect j) = false) →
      wch5Aux inspect 30 i rem = HealthOutcome.ok (M + 1 - i) := by
  intro rem
  induction rem with
  | zero => intro i hsum hle _; omega
  | succ rem ih =>
    intro i hsum hle hfalse
    by_cases hA : i = M
    · subst hA
      rw [wch5Aux, if_pos hM]
      congr 1
      omega
    · have hlt : i < M := lt_of_le_of_ne hle hA
      have hrec : wch5Aux inspect 30 (i + 1) rem = HealthOutcome.ok (M + 1 - (i + 1)) :=
        ih (i + 1) (by omega) (by omega) (fun j h1 h2 => hfalse j (by omega) h2)
      have hi29 : ¬((i == 30 - 1) = true) := by
        have : i ≠ 29 := by omega
        simpa using this
      rw [wch5Aux, if_neg (by simp [hfalse i (Nat.le_refl _) hlt])]
      by_cases hexit : ((inspect i).exitCode != 0) = true
      · rw [if_pos hexit, if_neg hi29, hrec]
        show HealthOutcome.ok (M + 1 - (i + 1) + 1) = HealthOutcome.ok (M + 1 - i)
        congr 1
        omega
      · rw [if_neg hexit, hrec]
        show HealthOutcome.ok (M + 1 - (i + 1) + 1) = HealthOutcome.ok (M + 1 - i)
        congr 1
        omega

theorem wch5Aux_exit (inspect : Nat → CState)
    (hunh : ∀ j, j < 30 → healthyObs (inspect j) = false)
    (hexit29 : ((inspect 29).exitCode != 0) = true) :
    ∀ rem i, i + rem = 30 → i ≤ 29 →
      wch5Aux inspect 30 i rem =
        HealthOutcome.exited (inspect 29).exitCode (30 - i) := by
  intro rem
  induction rem with
  | zero => intro i hsum hle; omega
  | succ rem ih =>
    intro i hsum hle
    have hf : healthyObs (inspect i) = false := hunh i (by omega)
    by_cases hA : i = 29
    · subst hA
      rw [wch5Aux, if_neg (by simp [hf]), if_pos hexit29, if_pos (by simp)]
    · have hrec := ih (i + 1) (by omega) (by omega)
      have hi29 : ¬((i == 30 - 1) = true) := by
        have : i ≠ 29 := hA
        simpa using this
      rw [wch5Aux, if_neg (by simp [hf])]
      by_cases hexit : ((inspect i).exitCode != 0) = true
      · rw [if_pos hexit, if_neg hi29, hrec]
        show HealthOutcome.exited _ (30 - (i + 1) + 1) = HealthOutcome.exited _ (30 - i)
        congr 1
        omega
      · rw [if_neg hexit, hrec]
        show HealthOutcome.exited _ (30 - (i + 1) + 1) = HealthOutcome.exited _ (30 - i)
        congr 1
        omega

theorem wch5Aux_timeout (inspect : Nat → CState)
    (hunh : ∀ j, j < 30 → healthyObs (inspect j) = false)
    (hexit29 : ((inspect 29).exitCode != 0) = false) :
    ∀ rem i, i + rem = 30 →
      wch5Aux inspect 30 i rem = HealthOutcome.timeout (30 - i) := by
  intro rem
  induction rem with
  | zero =>
    intro i hsum
    have : i = 30 := by omega
    subst this
    rfl
  | succ rem ih =>
    intro i hsum
    have hf : healthyObs (inspect i) = false := hunh i (by omega)
    have hrec := ih (i + 1) (by omega)
    by_cases hA : i = 29
    · subst hA
      rw [wch5Aux, if_neg (by simp [hf]), if_neg (by simp [hexit29]), hrec]
      show HealthOutcome.timeout (30 - (29 + 1) + 1) = HealthOutcome.timeout (30 - 29)
      rfl
    · have hi29 : ¬((i == 30 - 1) = true) := by
        have : i ≠ 29 := hA
        simpa using this
      rw [wch5Aux, if_neg (by simp [hf])]
      by_cases hexit : ((inspect i).exitCode != 0) = true
      · rw [if_pos hexit, if_neg hi29, hrec]
        show HealthOutcome.timeout (30 - (i + 1) + 1) = HealthOutcome.timeout (30 - i)
        congr 1
        omega
      · rw [if_neg hexit, hrec]
        show HealthOutcome.timeout (30 - (i + 1) + 1) = HealthOutcome.timeout (30 - i)
        congr 1
        omega

/-- C8 (counterexample): the claim that the health wait fails immediately,
consuming no further polling attempts, as soon as the container reports a
non-zero exit code is false: with an exit code of 1 observed on the first
poll and a running container on the second, the part_005 wait succeeds after
two probes — the exit-code error is caught by the loop's own catch block and
polling continues. -/
theorem c8_counterexample :
    (fun i => if i = 0 then (⟨false, none, 1⟩ : CState)
      else ⟨true, none, 0⟩) 0 = ⟨false, none, 1⟩ ∧
    waitForContainerHealthP5 (fun i => if i = 0 then ⟨false, none, 1⟩
      else ⟨true, none, 0⟩) = HealthOutcome.ok 2 := by
  constructor
  · rfl
  · decide

/-- C8 (amended): the part_005 health wait succeeds on the first observation
of a healthy (or running-without-healthcheck) state, regardless of earlier
exit-code observations, after exactly that many probes.  When no healthy
observation occurs within 30 polls: if the final poll observes a non-zero
exit code, the wait throws the container-exited error (only then is the
caught error rethrown), otherwise it throws the max-retries timeout error;
in both cases all 30 polls are consumed — an intermediate non-zero exit code
never stops the wait early. -/
theorem c8_amended :
    (∀ (inspect : Nat → CState) (M : Nat), M < 30 →
      (∀ j, j < M → healthyObs (inspect j) = false) →
      healthyObs (inspect M) = true →
      waitForContainerHealthP5 inspect = HealthOutcome.ok (M + 1)) ∧
    (∀ inspect : Nat → CState,
      (∀ j, j < 30 → healthyObs (inspect j) = false) →
      ((inspect 29).exitCode != 0) = true →
      waitForContainerHealthP5 inspect =
        HealthOutcome.exited (inspect 29).exitCode 30) ∧
    (∀ inspect : Nat → CState,
      (∀ j, j < 30 → healthyObs (inspect j) = false) →
      ((inspect 29).exitCode != 0) = false →
      waitForContainerHealthP5 inspect = HealthOutcome.timeout 30) := by
  refine ⟨?_, ?_, ?_⟩
  · intro inspect M hM30 hf hM
    unfold waitForContainerHealthP5
    rw [wch5Aux_success inspect M hM hM30 30 0 rfl (by omega) (fun j _ h2 => hf j h2)]
    congr 1
  · intro inspect hunh hexit
    unfold waitForContainerHealthP5
    rw [wch5Aux_exit inspect hunh hexit 30 0 rfl (by omega)]
  · intro inspect hunh hexit
    unfold waitForContainerHealthP5
    rw [wch5Aux_timeout inspect hunh hexit 30 0 rfl]

theorem c8_witness :
    waitForContainerHealthP5 (fun _ => ⟨true, some "healthy", 0⟩) =
      HealthOutcome.ok 1 :=
  c8_amended.1 (fun _ => ⟨true, some "healthy", 0⟩) 0 (by omega)
    (fun j hj => absurd hj (Nat.not_lt_zero j)) (by decide)

theorem cleanupG1_no_throw (st : SvcState) (faults : CleanupFaults) :
    (cleanupG1 st faults).2 = none := rfl

theorem cleanupG2_no_throw (st : SvcState) (faults : CleanupFaults) :
    (cleanupG2 st faults).2 = none := by
  unfold cleanupG2
  split
  · split
    · rfl
    · rfl
  · rfl

/-- C6: `cleanup` never rejects, in either generation: every error raised by
pool closure or container stop/remove is logged and swallowed, whatever the
current resource state; in particular a second invocation after a first
cleanup already succeeded (failure path followed by finally path, with the
container already stopped and removed and the pool already ended) raises no
error either, so a cleanup-phase failure can never replace or suppress the
pipeline's original error. -/
theorem c6_cleanup_never_throws :
    (∀ (st : SvcState) (faults : CleanupFaults), (cleanupG1 st faults).2 = none) ∧
    (∀ (st : SvcState) (faults : CleanupFaults), (cleanupG2 st faults).2 = none) ∧
    (∀ (st : SvcState) (f1 f2 : CleanupFaults),
      (cleanupG1 (cleanupG1 st f1).1 f2).2 = none ∧
      (cleanupG2 (cleanupG2 st f1).1 f2).2 = none) :=
  ⟨cleanupG1_no_throw, cleanupG2_no_throw,
    fun st f1 f2 => ⟨cleanupG1_no_throw _ _, cleanupG2_no_throw _ _⟩⟩

theorem fsRead_write_self (fs : FS) (p : String) (c : List Char) :
    fsRead (fsWrite fs p c) p = some c := by
  unfold fsRead fsWrite
  rw [List.find?_cons]
  simp

theorem fsRead_write_ne (fs : FS) (q : String) (c : List Char) (p : String)
    (h : p ≠ q) : fsRead (fsWrite fs q c) p = fsRead fs p := by
  unfold fsRead fsWrite
  rw [List.find?_cons]
  have hq : ((q, c).1 == p) = false := by
    simp only [beq_eq_false_iff_ne]
    exact fun he => h he.symm
  rw [hq]
  congr 1
  induction fs with
  | nil => rfl
  | cons e fs ih =>
    rw [List.filter_cons]
    by_cases he : (e.1 != q) = true
    · rw [if_pos he, List.find?_cons, List.find?_cons]
      cases hep : (e.1 == p) with
      | true => rfl
      | false => exact ih
    · rw [if_neg he]
      rw [List.find?_cons]
      have hep : (e.1 == p) = false := by
        have heq : e.1 = q := by simpa [bne] using he
        simp only [beq_eq_false_iff_ne, heq]
        exact fun hc => h hc.symm
      rw [hep]
      exact ih

theorem fsRead_unlink_self (fs : FS) (p : String) :
    fsRead (fsUnlink fs p) p = none := by
  unfold fsRead fsUnlink
  induction fs with
  | nil => rfl
  | cons e fs ih =>
    rw [List.filter_cons]
    by_cases he : (e.1 != p) = true
    · rw [if_pos he, List.find?_cons]
      have hep : (e.1 == p) = false := by
        simpa [bne] using he
      rw [hep]
      exact ih
    · rw [if_neg he]
      exact ih

theorem fsRead_unlink_ne (fs : FS) (q p : String) (h : p ≠ q) :
    fsRead (fsUnlink fs q) p = fsRead fs p := by
  unfold fsRead fsUnlink
  congr 1
  induction fs with
  | nil => rfl
  | cons e fs ih =>
    rw [List.filter_cons]
    by_cases he : (e.1 != q) = true
    · rw [if_pos he, List.find?_cons, List.find?_cons]
      cases hep : (e.1 == p) with
      | true => rfl
      | false => exact ih
    · rw [if_neg he, List.find?_cons]
      have hep : (e.1 == p) = false := by
        have heq : e.1 = q := by simpa [bne] using he
        simp only [beq_eq_false_iff_ne, heq]
        exact fun hc => h hc.symm
      rw [hep]
      exact ih

theorem processed_path_ne (p : String) : p ≠ p ++ ".processed" := by
  intro h
  have hl := congrArg String.length h
  rw [String.length_append] at hl
  have h10 : ".processed".length = 10 := rfl
  omega

/-- C7 (counterexample): the claim that the preprocessed copy is deleted
after the import that consumed it finishes is false on the second-generation
path: importing `d.sql` successfully leaves `d.sql.processed` in the
filesystem (part_003's importDump has no deletion step). -/
theorem c7_counterexample :
    (importOriginalDumpG2 [("d.sql", "x".data)] "d.sql" ⟨false, false⟩).2 = true ∧
    fsRead (importOriginalDumpG2 [("d.sql", "x".data)] "d.sql" ⟨false, false⟩).1
      ("d.sql" ++ ".processed") ≠ none := by
  constructor
  · decide
  · decide

/-- C7 (amended): `preprocessDump` writes its output to the new path
`dumpPath + ".processed"` and leaves the original dump unchanged in both
generations; the part_004 static `importDump` deletes the preprocessed copy
in its finally block on the success path and on both failure paths; the
second-generation import path (part_003 Dumper) leaves the preprocessed copy
in place after the import, on success and failure alike, while still leaving
the original untouched. -/
theorem c7_amended :
    ∀ (fs : FS) (p : String) (c : List Char) (faults : ImportFaults),
      fsRead fs p = some c →
      (preprocessDumpP4 fs p =
        some (fsWrite fs (p ++ ".processed") (transformChunkP4 c),
          p ++ ".processed") ∧
       fsRead (fsWrite fs (p ++ ".processed") (transformChunkP4 c)) p = some c) ∧
      (fsRead (importDumpP4 fs p faults).1 (p ++ ".processed") = none ∧
       fsRead (importDumpP4 fs p faults).1 p = some c) ∧
      (fsRead (importOriginalDumpG2 fs p faults).1 (p ++ ".processed") =
        some (transformChunkP3 c) ∧
       fsRead (importOriginalDumpG2 fs p faults).1 p = some c) := by
  intro fs p c faults hread
  have hne := processed_path_ne p
  have himp4 : (importDumpP4 fs p faults).1 =
      fsUnlink (fsWrite fs (p ++ ".processed") (transformChunkP4 c))
        (p ++ ".processed") := by
    unfold importDumpP4 preprocessDumpP4
    rw [hread]
    dsimp only
    by_cases h1 : faults.schemaCmdFails = true
    · rw [if_pos h1]
    · rw [if_neg h1]
      by_cases h2 : faults.importCmdFails = true
      · rw [if_pos h2]
      · rw [if_neg h2]
  have himpG2 : (importOriginalDumpG2 fs p faults).1 =
      fsWrite fs (p ++ ".processed") (transformChunkP3 c) := by
    unfold importOriginalDumpG2 preprocessDumpP3
    rw [hread]
    dsimp only
    by_cases h2 : faults.importCmdFails = true
    · rw [if_pos h2]
    · rw [if_neg h2]
  refine ⟨⟨?_, ?_⟩, ⟨?_, ?_⟩, ⟨?_, ?_⟩⟩
  · unfold preprocessDumpP4
    rw [hread]
  · rw [fsRead_write_ne fs _ _ p hne]
    exact hread
  · rw [himp4]
    exact fsRead_unlink_self _ _
  · rw [himp4, fsRead_unlink_ne _ _ _ hne, fsRead_write_ne fs _ _ p hne]
    exact hread
  · rw [himpG2]
    exact fsRead_write_self _ _ _
  · rw [himpG2, fsRead_write_ne fs _ _ p hne]
    exact hread

theorem c7_witness :
    fsRead (importDumpP4 [("d.sql", "x".data)] "d.sql" ⟨false, false⟩).1
      ("d.sql" ++ ".processed") = none :=
  (c7_amended [("d.sql", "x".data)] "d.sql" "x".data ⟨false, false⟩
    (by decide)).2.1.1

theorem c4_witness :
    replaceAll spPat spRepl (replaceAll spPat spRepl ttPat) =
      replaceAll spPat spRepl ttPat :=
  c4_amended.1 ttPat

theorem c6_witness :
    (cleanupG1 ⟨true, true, true, true, true⟩ ⟨true, true, false, true, false⟩).2 =
      none :=
  c6_cleanup_never_throws.1 ⟨true, true, true, true, true⟩
    ⟨true, true, false, true, false⟩

theorem c9_witness : (validateDumpP4 [['h', 'i']]).isValid = true :=
  (c9_amended.2.2 [['h', 'i']]).2

end JsDbAnon
